import Mathlib

/-
Verification of the framekit columnar data-frame engine's core contracts:
the expression evaluation engine (src/src/expr/string-expr.ts), the
aggregation primitives, and the parallel aggregation coordinator
(src/engine/parallelism, given here as unnamed parts 013 and 014).

JavaScript numbers are embedded as rationals (ℚ); the only irrational
value the engine can produce is the square root inside the std
aggregate, which is embedded through Real.sqrt applied to a rational
radicand.  Nullable cells are Option values.  Date objects are carried
as their epoch-millisecond timestamp (an integer).
-/

set_option maxHeartbeats 1000000

namespace FrameKit

/-- Logical column types (src/types/dtype.ts, referenced from the sources). -/
inductive DType where
  | float64
  | int32
  | utf8
  | boolean
  | date
  | object
deriving DecidableEq

/-- A cell value of the engine.  JS numbers are rationals; a Date is its
epoch-millisecond timestamp. -/
inductive Value where
  | num (q : ℚ)
  | str (s : String)
  | bool (b : Bool)
  | date (t : ℤ)
deriving DecidableEq

/-- Modelled from the spec: the Column abstraction (storage/column.ts is not
under src/).  Per §3 a column is a logical type tag plus a nullable backing
buffer; per §4.1 get(i) returns the typed value or null. -/
structure Column where
  dtype : DType
  values : List (Option Value)

/-- Modelled from the spec: indexed read (§4.1).  Out-of-range access fails in
the source; the model returns null there, and every theorem restricts the
index to the valid range. -/
def Column.get (c : Column) (i : ℕ) : Option Value :=
  c.values.getD i none

/-- Modelled from the spec: the length of a column (§3). -/
def Column.length (c : Column) : ℕ :=
  c.values.length

/-- Modelled from the spec: nullCount equals the number of null positions (§3
invariant). -/
def Column.nullCount (c : Column) : ℕ :=
  c.values.count none

/-- Whether a value inhabits a dtype: float64 holds numbers, int32 holds
32-bit integers, utf8 strings, boolean booleans, date dates; object columns
hold anything. -/
def dtypeOk : DType → Value → Bool
  | .float64, .num _ => true
  | .int32, .num q => q.den == 1 && (-(2 ^ 31) ≤ q.num && q.num < 2 ^ 31)
  | .utf8, .str _ => true
  | .boolean, .bool _ => true
  | .date, .date _ => true
  | .object, _ => true
  | _, _ => false

/-- A column is well formed when every present cell matches its dtype. -/
def Column.WellFormed (c : Column) : Prop :=
  ∀ x ∈ c.values, Option.all (dtypeOk c.dtype) x = true

-- ── Expression engine: src/src/expr/string-expr.ts ──

/-- Binary arithmetic operators of ArithmeticExpr. -/
inductive ArithOp where
  | add
  | sub
  | mul
  | div
  | mod
  | pow
deriving DecidableEq

/-- Truncation toward zero, as JS coerces to integers. -/
def jsTrunc (q : ℚ) : ℤ :=
  Int.tdiv q.num q.den

/-- The JS remainder operator on numbers (truncated division).  The NaN
results for a zero divisor are outside the rational embedding. -/
def jsMod (a b : ℚ) : ℚ :=
  a - b * (jsTrunc (a / b) : ℚ)

/-- Math.pow restricted to the rational embedding: exact for integer
exponents; a fractional exponent leaves ℚ and is mapped to 0. -/
def jsPow (a b : ℚ) : ℚ :=
  if b.den = 1 then a ^ b.num else 0

/-- applyArithOp from string-expr.ts (lines 802-817). -/
def applyArithOp (a b : ℚ) : ArithOp → ℚ
  | .add => a + b
  | .sub => a - b
  | .mul => a * b
  | .div => a / b
  | .mod => jsMod a b
  | .pow => jsPow a b

/-- ArithmeticExpr.evaluate (lines 782-800): loop over the left series length
reading both operand series; a null on either side produces null.  Reading a
series is Option-valued here; an out-of-range read (which the source turns
into an error) also yields none, and theorems keep indices in range. -/
def ArithmeticExpr.evaluate (op : ArithOp) (left right : List (Option ℚ)) :
    List (Option ℚ) :=
  (List.range left.length).map fun i =>
    match left[i]?, right[i]? with
    | some (some a), some (some b) => some (applyArithOp a b op)
    | _, _ => none

/-- Comparison operators of ComparisonExpr. -/
inductive CmpOp where
  | eq
  | neq
  | gt
  | gte
  | lt
  | lte
deriving DecidableEq

/-- applyCmpOp from string-expr.ts (lines 906-921), at the numeric value
type. -/
def applyCmpOp (a b : ℚ) : CmpOp → Bool
  | .eq => a == b
  | .neq => !(a == b)
  | .gt => decide (b < a)
  | .gte => decide (b ≤ a)
  | .lt => decide (a < b)
  | .lte => decide (a ≤ b)

/-- LiteralExpr.evaluate (lines 717-723): the literal value broadcast to the
table length. -/
def LiteralExpr.evaluate (len : ℕ) (v : Option ℚ) : List (Option ℚ) :=
  List.replicate len v

/-- ComparisonExpr.evaluate, column-versus-literal fast path (lines 853-868):
direct reads of the column buffer against the fixed literal. -/
def ComparisonExpr.evalColLit (op : CmpOp) (source : List (Option ℚ))
    (literal : Option ℚ) : List (Option Bool) :=
  (List.range source.length).map fun i =>
    match source[i]?, literal with
    | some (some a), some b => some (applyCmpOp a b op)
    | _, _ => none

/-- ComparisonExpr.evaluate, literal-versus-column fast path (lines 870-885). -/
def ComparisonExpr.evalLitCol (op : CmpOp) (literal : Option ℚ)
    (source : List (Option ℚ)) : List (Option Bool) :=
  (List.range source.length).map fun i =>
    match literal, source[i]? with
    | some a, some (some b) => some (applyCmpOp a b op)
    | _, _ => none

/-- ComparisonExpr.evaluate, general path (lines 887-902): both operands
materialized as full series, compared pointwise. -/
def ComparisonExpr.evalGeneral (op : CmpOp) (left right : List (Option ℚ)) :
    List (Option Bool) :=
  (List.range left.length).map fun i =>
    match left[i]?, right[i]? with
    | some (some a), some (some b) => some (applyCmpOp a b op)
    | _, _ => none

/-- Logical operators of LogicalExpr. -/
inductive LogicOp where
  | and
  | or
deriving DecidableEq

/-- LogicalExpr.evaluate (lines 947-966): null on either side propagates,
otherwise the boolean connective applies. -/
def LogicalExpr.evaluate (op : LogicOp) (left right : List (Option Bool)) :
    List (Option Bool) :=
  (List.range left.length).map fun i =>
    match left[i]?, right[i]? with
    | some (some a), some (some b) =>
        some (match op with | .and => a && b | .or => a || b)
    | _, _ => none

/-- NotExpr.evaluate (lines 985-996): null maps to null, otherwise boolean
negation. -/
def NotExpr.evaluate (inner : List (Option Bool)) : List (Option Bool) :=
  inner.map fun v =>
    match v with
    | none => none
    | some b => some (!b)

/-- IsNullExpr.evaluate (lines 1320-1330): pushes the boolean "value is null"
for every row, never null itself. -/
def IsNullExpr.evaluate {α : Type} (inner : List (Option α)) :
    List (Option Bool) :=
  inner.map fun v => some v.isNone

/-- IsNotNullExpr.evaluate (lines 1349-1359): pushes "value is not null". -/
def IsNotNullExpr.evaluate {α : Type} (inner : List (Option α)) :
    List (Option Bool) :=
  inner.map fun v => some v.isSome

-- ── C2: null propagation ──

/-- C2: for every binary arithmetic, comparison (general and both fast
paths), or logical expression and every in-range row, a null operand makes
the result null; and not(null) is null. -/
theorem C2_null_propagation (i : ℕ) :
    (∀ (op : ArithOp) (l r : List (Option ℚ)), i < l.length → i < r.length →
      (l.getD i (some 0) = none ∨ r.getD i (some 0) = none) →
      (ArithmeticExpr.evaluate op l r)[i]? = some none)
    ∧ (∀ (op : CmpOp) (l r : List (Option ℚ)), i < l.length → i < r.length →
      (l.getD i (some 0) = none ∨ r.getD i (some 0) = none) →
      (ComparisonExpr.evalGeneral op l r)[i]? = some none)
    ∧ (∀ (op : CmpOp) (s : List (Option ℚ)) (lit : Option ℚ), i < s.length →
      (s.getD i (some 0) = none ∨ lit = none) →
      (ComparisonExpr.evalColLit op s lit)[i]? = some none
      ∧ (ComparisonExpr.evalLitCol op lit s)[i]? = some none)
    ∧ (∀ (op : LogicOp) (l r : List (Option Bool)), i < l.length → i < r.length →
      (l.getD i (some false) = none ∨ r.getD i (some false) = none) →
      (LogicalExpr.evaluate op l r)[i]? = some none)
    ∧ (∀ s : List (Option Bool), i < s.length → s.getD i (some false) = none →
      (NotExpr.evaluate s)[i]? = some none) := by
  have hget : ∀ {β : Type} (l : List (Option β)) (d : Option β), i < l.length →
      l.getD i d = none → l[i]? = some none := by
    intro β l d hi hnone
    rw [List.getD_eq_getElem?_getD, List.getElem?_eq_getElem hi] at hnone
    simp only [Option.getD_some] at hnone
    rw [List.getElem?_eq_getElem hi, hnone]
  refine ⟨?_, ?_, ?_, ?_, ?_⟩
  · intro op l r hl hr hnull
    rw [ArithmeticExpr.evaluate, List.getElem?_map,
      List.getElem?_range (by simpa using hl), Option.map_some']
    rcases hnull with h | h
    · rw [hget l _ hl h]
    · rw [hget r _ hr h]
      rcases hl' : l[i]? with _ | v
      · rfl
      · rcases v with _ | a <;> rfl
  · intro op l r hl hr hnull
    rw [ComparisonExpr.evalGeneral, List.getElem?_map,
      List.getElem?_range (by simpa using hl), Option.map_some']
    rcases hnull with h | h
    · rw [hget l _ hl h]
    · rw [hget r _ hr h]
      rcases hl' : l[i]? with _ | v
      · rfl
      · rcases v with _ | a <;> rfl
  · intro op s lit hs hnull
    constructor
    · rw [ComparisonExpr.evalColLit, List.getElem?_map,
        List.getElem?_range (by simpa using hs), Option.map_some']
      rcases hnull with h | h
      · rw [hget s _ hs h]
      · subst h
        rcases hs' : s[i]? with _ | v
        · rfl
        · rcases v with _ | a <;> rfl
    · rw [ComparisonExpr.evalLitCol, List.getElem?_map,
        List.getElem?_range (by simpa using hs), Option.map_some']
      rcases hnull with h | h
      · rw [hget s _ hs h]
        rcases lit with _ | a <;> rfl
      · subst h; rfl
  · intro op l r hl hr hnull
    rw [LogicalExpr.evaluate, List.getElem?_map,
      List.getElem?_range (by simpa using hl), Option.map_some']
    rcases hnull with h | h
    · rw [hget l _ hl h]
    · rw [hget r _ hr h]
      rcases hl' : l[i]? with _ | v
      · rfl
      · rcases v with _ | a <;> rfl
  · intro s hs hnull
    rw [NotExpr.evaluate, List.getElem?_map, hget s (some false) hs hnull,
      Option.map_some']

/-- Witness for C2 at row 0 with concrete null operands. -/
theorem C2_null_propagation_witness :
    (ArithmeticExpr.evaluate .add [none] [some 1])[0]? = some none
    ∧ (ComparisonExpr.evalGeneral .lt [some 1] [none])[0]? = some none
    ∧ (ComparisonExpr.evalColLit .eq [none] (some 2))[0]? = some none
    ∧ (ComparisonExpr.evalLitCol .eq (some 2) [none])[0]? = some none
    ∧ (LogicalExpr.evaluate .and [some true] [none])[0]? = some none
    ∧ (NotExpr.evaluate [none])[0]? = some none := by
  obtain ⟨h1, h2, h3, h4, h5⟩ := C2_null_propagation 0
  exact ⟨h1 .add [none] [some 1] (by decide) (by decide) (Or.inl rfl),
    h2 .lt [some 1] [none] (by decide) (by decide) (Or.inr rfl),
    (h3 .eq [none] (some 2) (by decide) (Or.inl rfl)).1,
    (h3 .eq [none] (some 2) (by decide) (Or.inl rfl)).2,
    h4 .and [some true] [none] (by decide) (by decide) (Or.inr rfl),
    h5 [none] (by decide) rfl⟩

-- ── C9: fast path versus general path of ComparisonExpr ──

/-- C9: the column-versus-literal fast paths of ComparisonExpr.evaluate
produce, for every operator, column and literal, exactly the series the
general path produces on the materialized operands (the literal broadcast to
the table length). -/
theorem C9_fast_path_equivalence (op : CmpOp) (source : List (Option ℚ))
    (literal : Option ℚ) (dfLen : ℕ) (h : source.length = dfLen) :
    ComparisonExpr.evalColLit op source literal
      = ComparisonExpr.evalGeneral op source (LiteralExpr.evaluate dfLen literal)
    ∧ ComparisonExpr.evalLitCol op literal source
      = ComparisonExpr.evalGeneral op (LiteralExpr.evaluate dfLen literal) source := by
  subst h
  constructor
  · unfold ComparisonExpr.evalColLit ComparisonExpr.evalGeneral LiteralExpr.evaluate
    apply List.map_congr_left
    intro i hi
    rw [List.mem_range] at hi
    rw [List.getElem?_replicate, if_pos hi]
    rcases literal with _ | a
    · rcases hs' : source[i]? with _ | v
      · rfl
      · rcases v with _ | b <;> rfl
    · rcases hs' : source[i]? with _ | v
      · rfl
      · rcases v with _ | b <;> rfl
  · unfold ComparisonExpr.evalLitCol ComparisonExpr.evalGeneral LiteralExpr.evaluate
    rw [List.length_replicate]
    apply List.map_congr_left
    intro i hi
    rw [List.mem_range] at hi
    rw [List.getElem?_replicate, if_pos hi]
    rcases literal with _ | a
    · rcases hs' : source[i]? with _ | v
      · rfl
      · rcases v with _ | b <;> rfl
    · rcases hs' : source[i]? with _ | v
      · rfl
      · rcases v with _ | b <;> rfl

/-- Witness for C9 on a two-row column with a literal, in both operand
orders. -/
theorem C9_fast_path_equivalence_witness :
    ComparisonExpr.evalColLit .lt [some 1, none] (some 2)
      = ComparisonExpr.evalGeneral .lt [some 1, none] (LiteralExpr.evaluate 2 (some 2))
    ∧ ComparisonExpr.evalLitCol .lt (some 2) [some 1, none]
      = ComparisonExpr.evalGeneral .lt (LiteralExpr.evaluate 2 (some 2)) [some 1, none] :=
  C9_fast_path_equivalence .lt [some 1, none] (some 2) 2 rfl

-- ── C10: isNull / isNotNull never propagate null ──

/-- C10: isNull and isNotNull always produce a non-null boolean; isNull is
true exactly at the null rows of the operand and isNotNull is its pointwise
negation. -/
theorem C10_isNull_total {α : Type} (s : List (Option α)) (i : ℕ)
    (h : i < s.length) :
    ∃ b : Bool, (IsNullExpr.evaluate s)[i]? = some (some b)
      ∧ (b = true ↔ s[i]? = some none)
      ∧ (IsNotNullExpr.evaluate s)[i]? = some (some (!b)) := by
  refine ⟨s[i].isNone, ?_, ?_, ?_⟩
  · rw [IsNullExpr.evaluate, List.getElem?_map, List.getElem?_eq_getElem h]
    rfl
  · rw [List.getElem?_eq_getElem h]
    rcases hv : s[i] with _ | v
    · simp [List.get_eq_getElem, hv]
    · simp [List.get_eq_getElem, hv]
  · rw [IsNotNullExpr.evaluate, List.getElem?_map, List.getElem?_eq_getElem h]
    rcases hv : s[i] with _ | v
    · simp [List.get_eq_getElem, hv]
    · simp [List.get_eq_getElem, hv]

/-- Witness for C10 on a column containing a null and a value. -/
theorem C10_isNull_total_witness :
    ∃ b : Bool, (IsNullExpr.evaluate [none, some (1 : ℚ)])[0]? = some (some b)
      ∧ (b = true ↔ ([none, some (1 : ℚ)][0]? = some none))
      ∧ (IsNotNullExpr.evaluate [none, some (1 : ℚ)])[0]? = some (some (!b)) :=
  C10_isNull_total [none, some (1 : ℚ)] 0 (by decide)


-- ── Aggregate expressions: string-expr.ts lines 1011-1219 ──

/-- The numeric view of a cell: some q exactly when the cell is non-null and
holds a JS number (the typeof check of the aggregate loops). -/
def numValue : Option Value → Option ℚ
  | some (.num q) => some q
  | _ => none

/-- toComparableKey (lines 1011-1017): typed prefix plus rendered value, so
values of different logical types never collide. -/
def toComparableKey : Value → String
  | .date t => "\x00date" ++ toString t
  | .str s => "\x00str" ++ s
  | .num q => "\x00num" ++ toString q
  | .bool b => "\x00bool" ++ toString b

/-- SumAggExpr.evaluateColumn (lines 1047-1059): running total over the
non-null numeric cells, starting from 0. -/
def SumAggExpr.evaluateColumn (col : List (Option Value)) : ℚ :=
  col.foldl
    (fun total v => match numValue v with
      | some q => total + q
      | none => total) 0

/-- MeanAggExpr.evaluateColumn (lines 1061-1075): running total and count of
the non-null numeric cells; null when the count is zero. -/
def MeanAggExpr.evaluateColumn (col : List (Option Value)) : Option ℚ :=
  let s := col.foldl
    (fun p v => match numValue v with
      | some q => (p.1 + q, p.2 + 1)
      | none => p) ((0 : ℚ), (0 : ℕ))
  if s.2 = 0 then none else some (s.1 / (s.2 : ℚ))

/-- CountAggExpr.evaluateColumn (lines 1077-1088): number of non-null cells. -/
def CountAggExpr.evaluateColumn (col : List (Option Value)) : ℕ :=
  col.foldl
    (fun count v => match v with
      | some _ => count + 1
      | none => count) 0

/-- CountDistinctAggExpr.evaluateColumn (lines 1090-1102): size of the set of
comparable keys of the non-null cells. -/
def CountDistinctAggExpr.evaluateColumn (col : List (Option Value)) : ℕ :=
  ((col.filterMap id).map toComparableKey).dedup.length

/-- MinAggExpr.evaluateColumn (lines 1104-1118): least non-null numeric cell,
null when there is none. -/
def MinAggExpr.evaluateColumn (col : List (Option Value)) : Option ℚ :=
  col.foldl
    (fun result v => match numValue v with
      | some q =>
          match result with
          | none => some q
          | some m => if q < m then some q else some m
      | none => result) none

/-- MaxAggExpr.evaluateColumn (lines 1120-1134): greatest non-null numeric
cell, null when there is none. -/
def MaxAggExpr.evaluateColumn (col : List (Option Value)) : Option ℚ :=
  col.foldl
    (fun result v => match numValue v with
      | some q =>
          match result with
          | none => some q
          | some m => if m < q then some q else some m
      | none => result) none

/-- StdAggExpr.evaluateColumn (lines 1136-1151): collect the non-null numeric
cells; null for fewer than 2, else the square root of the sum of squared
deviations from the mean divided by length minus 1. -/
noncomputable def StdAggExpr.evaluateColumn (col : List (Option Value)) :
    Option ℝ :=
  let values := col.filterMap numValue
  if values.length < 2 then none
  else
    let mean := values.foldl (· + ·) 0 / (values.length : ℚ)
    let sumSqDiff := values.foldl (fun acc v => acc + (v - mean) ^ 2) 0
    some (Real.sqrt ((sumSqDiff / ((values.length : ℚ) - 1) : ℚ) : ℝ))

/-- FirstAggExpr.evaluateColumn (lines 1153-1164): first non-null cell. -/
def FirstAggExpr.evaluateColumn : List (Option Value) → Option Value
  | [] => none
  | none :: rest => FirstAggExpr.evaluateColumn rest
  | some v :: _ => some v

/-- LastAggExpr.evaluateColumn (lines 1166-1177): the loop runs from the end
of the column, so it is the first non-null cell of the reversed column. -/
def LastAggExpr.evaluateColumn (col : List (Option Value)) : Option Value :=
  FirstAggExpr.evaluateColumn col.reverse

-- ── C3: null skipping of sum / mean / min / max ──

/-- Every fold whose step ignores cells of the given column leaves the
accumulator unchanged. -/
theorem foldl_congr_skip {β : Type} (f : β → Option Value → β)
    (col : List (Option Value)) (init : β)
    (h : ∀ b : β, ∀ v ∈ col, f b v = b) : col.foldl f init = init := by
  induction col generalizing init with
  | nil => rfl
  | cons v rest ih =>
      rw [List.foldl_cons, h init v (List.mem_cons_self v rest)]
      exact ih init fun b w hw => h b w (List.mem_cons_of_mem v hw)

/-- The sum aggregate is the sum of the numeric view of the column. -/
theorem sum_eq_filterMap_sum (col : List (Option Value)) :
    SumAggExpr.evaluateColumn col = (col.filterMap numValue).sum := by
  suffices h : ∀ init : ℚ, col.foldl
      (fun total v => match numValue v with
        | some q => total + q
        | none => total) init = init + (col.filterMap numValue).sum by
    simpa [SumAggExpr.evaluateColumn] using h 0
  induction col with
  | nil => intro init; simp
  | cons v rest ih =>
      intro init
      rw [List.foldl_cons, List.filterMap_cons]
      rcases hv : numValue v with _ | q
      · simpa [hv] using ih init
      · simp only [hv, List.sum_cons]
        rw [ih (init + q)]
        ring

/-- C3: sum skips nulls (it is the sum of the non-null numeric values), sum
of the concrete example column is 9, sum of the empty column is 0, and on an
empty or all-null column sum is 0 while mean, min and max are null. -/
theorem C3_agg_null_skipping (col : List (Option Value)) :
    SumAggExpr.evaluateColumn col = (col.filterMap numValue).sum
    ∧ SumAggExpr.evaluateColumn
        [some (.num 1), none, some (.num 3), none, some (.num 5)] = 9
    ∧ SumAggExpr.evaluateColumn [] = 0
    ∧ ((col = [] ∨ ∀ v ∈ col, v = none) →
        SumAggExpr.evaluateColumn col = 0
        ∧ MeanAggExpr.evaluateColumn col = none
        ∧ MinAggExpr.evaluateColumn col = none
        ∧ MaxAggExpr.evaluateColumn col = none) := by
  refine ⟨sum_eq_filterMap_sum col, ?_, rfl, ?_⟩
  · norm_num [SumAggExpr.evaluateColumn, numValue, List.foldl]
  · intro hnull
    have hnum : ∀ v ∈ col, numValue v = none := by
      rcases hnull with h | h
      · subst h; intro v hv; exact absurd hv (List.not_mem_nil v)
      · intro v hv; rw [h v hv]; rfl
    refine ⟨?_, ?_, ?_, ?_⟩
    · exact foldl_congr_skip _ col 0 fun b v hv => by
        simp only [hnum v hv]
    · rw [MeanAggExpr.evaluateColumn]
      rw [foldl_congr_skip _ col ((0 : ℚ), (0 : ℕ)) fun b v hv => by
        simp only [hnum v hv]]
      rfl
    · exact foldl_congr_skip _ col none fun b v hv => by
        simp only [hnum v hv]
    · exact foldl_congr_skip _ col none fun b v hv => by
        simp only [hnum v hv]

/-- Witness for C3 at a one-cell all-null column. -/
theorem C3_agg_null_skipping_witness :
    SumAggExpr.evaluateColumn [none] = 0
    ∧ MeanAggExpr.evaluateColumn [none] = none
    ∧ MinAggExpr.evaluateColumn [none] = none
    ∧ MaxAggExpr.evaluateColumn [none] = none :=
  (C3_agg_null_skipping [none]).2.2.2 (Or.inr (by decide))

-- ── C6: std is the sample standard deviation ──

/-- The sample standard deviation as the spec words it: square root of the
sum of squared deviations from the mean divided by n minus 1, null for fewer
than 2 values. -/
noncomputable def stdSampleSpec (col : List (Option Value)) : Option ℝ :=
  let xs := col.filterMap numValue
  if xs.length < 2 then none
  else
    let m := xs.sum / (xs.length : ℚ)
    some (Real.sqrt
      (((xs.map fun v => (v - m) ^ 2).sum / ((xs.length : ℚ) - 1) : ℚ) : ℝ))

/-- C6: for every column, the std aggregate equals the sample standard
deviation of the non-null numeric values, and is null for fewer than 2 of
them. -/
theorem C6_std_is_sample_std (col : List (Option Value)) :
    StdAggExpr.evaluateColumn col = stdSampleSpec col := by
  rw [StdAggExpr.evaluateColumn, stdSampleSpec]
  have h1 : ∀ l : List ℚ, l.foldl (· + ·) 0 = l.sum := fun l =>
    List.sum_eq_foldl.symm
  have h2 : ∀ (l : List ℚ) (m : ℚ),
      l.foldl (fun acc v => acc + (v - m) ^ 2) 0
        = (l.map fun v => (v - m) ^ 2).sum := by
    intro l m
    rw [List.sum_eq_foldl, List.foldl_map]
  simp only [h1, h2]

-- ── Parallel aggregation: serialization (part_013 lines 51-140) ──

/-- The flat data buffer of a serialized column: a typed-array of numbers for
float64/date, of 32-bit integers, of bytes for booleans, or a plain string
sequence for utf8. -/
inductive WorkerData where
  | nums (l : List ℚ)
  | ints (l : List ℤ)
  | bytes (l : List ℕ)
  | strs (l : List String)

/-- Reading position i of a serialized buffer, as the worker's typed-array or
string-array indexing does: typed arrays yield numbers, the string array
yields a string. -/
def WorkerData.read : WorkerData → ℕ → Value
  | .nums l, i => .num (l.getD i 0)
  | .ints l, i => .num ((l.getD i 0 : ℤ) : ℚ)
  | .bytes l, i => .num ((l.getD i 0 : ℕ) : ℚ)
  | .strs l, i => .str (l.getD i "")

/-- A serialized column as sent to a worker (engine/parallelism/types.ts).
The packed validity bitmap is modelled as one natural number whose bit i is
the byte-array bit maskBytes[i >> 3] >> (i & 7). -/
structure WorkerColumnData where
  name : String
  dtype : DType
  data : WorkerData
  nullMask : Option ℕ
  length : ℕ

/-- The validity bitmap loop of serializeColumn: bit (base + j) is set
exactly for the non-null positions j of the remaining cells. -/
def buildMask : List (Option Value) → ℕ → ℕ
  | [], _ => 0
  | v :: rest, i => (if v.isSome then 1 <<< i else 0) ||| buildMask rest (i + 1)

/-- serializeColumn (part_013 lines 51-140): a flat type-tagged buffer with
null cells stored as zero / empty string, plus the validity bitmap when the
column has nulls.  Cells that cannot inhabit the column's dtype (impossible
for well-formed columns) serialize as zero / empty. -/
def serializeColumn (name : String) (column : Column) : WorkerColumnData :=
  let len := column.length
  let nullMask : Option ℕ :=
    if column.nullCount > 0 then some (buildMask column.values 0) else none
  match column.dtype with
  | .float64 | .date =>
      ⟨name, if column.dtype = .date then .date else .float64,
        .nums (column.values.map fun v =>
          match v with
          | none => 0
          | some (.date t) => (t : ℚ)
          | some (.num q) => q
          | some _ => 0),
        nullMask, len⟩
  | .int32 =>
      ⟨name, .int32,
        .ints (column.values.map fun v =>
          match v with
          | none => 0
          | some (.num q) => jsTrunc q
          | some _ => 0),
        nullMask, len⟩
  | .boolean =>
      ⟨name, .boolean,
        .bytes (column.values.map fun v =>
          match v with
          | none => 0
          | some (.bool b) => if b then 1 else 0
          | some _ => 0),
        nullMask, len⟩
  | .utf8 | .object =>
      ⟨name, .utf8,
        .strs (column.values.map fun v =>
          match v with
          | none => ""
          | some (.str s) => s
          | some (.num q) => toString q
          | some (.bool b) => if b then "true" else "false"
          | some (.date _) => ""),
        nullMask, len⟩

-- ── Worker code (part_014) ──

/-- getNumericValue (part_014 lines 10-23): a cleared validity bit is null;
then only the float64 / int32 / date dtypes read the buffer — any other
dtype (in particular boolean) falls through to null. -/
def getNumericValue (data : WorkerData) (nullMask : Option ℕ) (index : ℕ)
    (dtype : DType) : Option Value :=
  match nullMask with
  | some m =>
      if m.testBit index = false then none
      else if dtype = .float64 ∨ dtype = .int32 ∨ dtype = .date then
        some (data.read index)
      else none
  | none =>
      if dtype = .float64 ∨ dtype = .int32 ∨ dtype = .date then
        some (data.read index)
      else none

/-- getStringValue (part_014 lines 25-34). -/
def getStringValue (data : WorkerData) (nullMask : Option ℕ) (index : ℕ) :
    Option Value :=
  match nullMask with
  | some m => if m.testBit index = false then none else some (data.read index)
  | none => some (data.read index)

/-- getValue (part_014 lines 36-41). -/
def getValue (colData : WorkerColumnData) (index : ℕ) : Option Value :=
  if colData.dtype = .utf8 then
    getStringValue colData.data colData.nullMask index
  else
    getNumericValue colData.data colData.nullMask index colData.dtype

/-- The aggregation vocabulary of the worker protocol
(engine/parallelism/types.ts AggSpec). -/
inductive AggType where
  | sum
  | mean
  | count
  | countDistinct
  | min
  | max
  | std
  | first
  | last
deriving DecidableEq

/-- A value as it appears in a worker result: a JS number (possibly the
irrational output of Math.sqrt), string or boolean. -/
inductive AggOut where
  | num (x : ℝ)
  | str (s : String)
  | bool (b : Bool)

/-- The embedding of a cell value into worker-result values. -/
def Value.toAggOut : Value → AggOut
  | .num q => .num (q : ℝ)
  | .str s => .str s
  | .bool b => .bool b
  | .date t => .num ((t : ℚ) : ℝ)

/-- computeAgg (part_014 lines 43-139): the worker's aggregation over its
assigned row indices.  Note sum yields null (not 0) when no numeric value is
seen, and std divides the squared sum by the count (population variance)
before taking the square root. -/
noncomputable def computeAgg (colData : WorkerColumnData) (indices : List ℕ) :
    AggType → Option AggOut
  | .sum =>
      let s := indices.foldl
        (fun p i => match numValue (getValue colData i) with
          | some q => (p.1 + q, true)
          | none => p) ((0 : ℚ), false)
      if s.2 then some (.num (s.1 : ℝ)) else none
  | .mean =>
      let s := indices.foldl
        (fun p i => match numValue (getValue colData i) with
          | some q => (p.1 + q, p.2 + 1)
          | none => p) ((0 : ℚ), (0 : ℕ))
      if s.2 > 0 then some (.num ((s.1 / (s.2 : ℚ) : ℚ) : ℝ)) else none
  | .count =>
      some (.num ((indices.foldl
        (fun c i => match getValue colData i with
          | some _ => c + 1
          | none => c) (0 : ℕ) : ℕ) : ℝ))
  | .countDistinct =>
      some (.num (((indices.filterMap (getValue colData)).dedup.length : ℕ) : ℝ))
  | .min =>
      match indices.foldl
        (fun result i => match numValue (getValue colData i) with
          | some q =>
              match result with
              | none => some q
              | some m => if q < m then some q else some m
          | none => result) none with
      | some m => some (.num (m : ℝ))
      | none => none
  | .max =>
      match indices.foldl
        (fun result i => match numValue (getValue colData i) with
          | some q =>
              match result with
              | none => some q
              | some m => if m < q then some q else some m
          | none => result) none with
      | some m => some (.num (m : ℝ))
      | none => none
  | .std =>
      let s := indices.foldl
        (fun p i => match numValue (getValue colData i) with
          | some q => (p.1 + q, p.2.1 + q * q, p.2.2 + 1)
          | none => p) ((0 : ℚ), (0 : ℚ), (0 : ℕ))
      if s.2.2 < 2 then none
      else
        let mean := s.1 / (s.2.2 : ℚ)
        let variance := s.2.1 / (s.2.2 : ℚ) - mean * mean
        some (.num (Real.sqrt ((variance : ℚ) : ℝ)))
  | .first => ((indices.map (getValue colData)).filterMap id).head?.map Value.toAggOut
  | .last => ((indices.map (getValue colData)).filterMap id).getLast?.map Value.toAggOut

-- ── C7: serialization round trip ──

/-- Bit k of the validity mask built from position base onward is set exactly
when it covers a non-null cell. -/
theorem testBit_buildMask (vs : List (Option Value)) :
    ∀ base k, ((buildMask vs base).testBit k = true ↔
      ∃ j, j < vs.length ∧ k = base + j ∧ (vs.getD j none).isSome = true) := by
  induction vs with
  | nil =>
      intro base k
      simp [buildMask]
  | cons v rest ih =>
      intro base k
      simp only [buildMask, Nat.testBit_or, Bool.or_eq_true]
      constructor
      · rintro (h | h)
        · rcases hv : v.isSome with _ | _
          · rw [hv] at h
            simp at h
          · rw [hv] at h
            simp only [if_true] at h
            rw [Nat.shiftLeft_eq, one_mul] at h
            have hk : base = k := by
              by_contra hne
              rw [Nat.testBit_two_pow_of_ne hne] at h
              exact Bool.false_ne_true h
            exact ⟨0, by simp only [List.length_cons]; omega, by omega,
              by simpa [← hk] using hv⟩
        · obtain ⟨j, hj, hk, hs⟩ := (ih (base + 1) k).1 h
          exact ⟨j + 1, by simp only [List.length_cons]; omega, by omega,
            by simpa using hs⟩
      · rintro ⟨j, hj, hk, hs⟩
        cases j with
        | zero =>
            left
            rw [List.getD_cons_zero] at hs
            have hkb : k = base := by omega
            subst hkb
            simp only [hs, if_true]
            rw [Nat.shiftLeft_eq, one_mul]
            exact Nat.testBit_two_pow_self
        | succ m =>
            right
            refine (ih (base + 1) k).2
              ⟨m, by simp only [List.length_cons] at hj; omega, by omega, ?_⟩
            simpa using hs
/-- For an in-range index the mask bit equals the presence of the cell. -/
theorem mask_bit_eq (vs : List (Option Value)) (i : ℕ) (hi : i < vs.length) :
    (buildMask vs 0).testBit i = (vs.getD i none).isSome := by
  rcases h : (vs.getD i none).isSome with _ | _
  · rcases hbit : (buildMask vs 0).testBit i with _ | _
    · rfl
    · obtain ⟨j, hj, hk, hs⟩ := (testBit_buildMask vs 0 i).1 hbit
      have hji : j = i := by omega
      subst hji
      rw [hs] at h
      cases h
  · exact (testBit_buildMask vs 0 i).2 ⟨i, hi, (Nat.zero_add i).symm, h⟩

/-- Reading a mapped list at an in-range position. -/
theorem getD_map_of_lt {α β : Type} (f : α → β) (l : List α) (i : ℕ)
    (d : β) (d' : α) (h : i < l.length) :
    (l.map f).getD i d = f (l.getD i d') := by
  rw [List.getD_eq_getElem _ _ (by simpa using h), List.getElem_map,
    List.getD_eq_getElem _ _ h]

/-- How a cell value appears after the worker round trip: a date becomes its
epoch-millisecond timestamp, everything else is unchanged. -/
def workerView : Value → Value
  | .date t => .num ((t : ℤ) : ℚ)
  | .num q => .num q
  | .str s => .str s
  | .bool b => .bool b

/-- C7 counterexample: a boolean column's non-null cell reads back as null
through the worker's getValue (getNumericValue checks only the float64,
int32 and date dtypes). -/
theorem C7_boolean_counterexample :
    (Column.mk .boolean [some (.bool true)]).get 0 = some (.bool true)
    ∧ getValue (serializeColumn "b" (Column.mk .boolean [some (.bool true)])) 0
        = none := by
  constructor
  · rfl
  · rfl

/-- C7 amended: for well-formed float64, int32, date and utf8 columns,
reading position i of serializeColumn's output with the worker's getValue
yields the value and null status of column.get(i), dates as their
epoch-millisecond timestamps; boolean columns are excluded (their values
read back as null, see the counterexample). -/
theorem C7_serialize_roundtrip (name : String) (c : Column) (i : ℕ)
    (hwf : c.WellFormed)
    (hdt : c.dtype = .float64 ∨ c.dtype = .int32 ∨ c.dtype = .date
      ∨ c.dtype = .utf8)
    (hi : i < c.length) :
    getValue (serializeColumn name c) i = (c.get i).map workerView := by
  obtain ⟨dt, vs⟩ := c
  simp only [Column.length] at hi
  have hwf' : ∀ x ∈ vs, Option.all (dtypeOk dt) x = true := hwf
  have hmem : vs.getD i none ∈ vs := by
    have h1 : vs.getD i none = vs[i] := List.getD_eq_getElem vs none hi
    rw [h1]
    exact List.getElem_mem hi
  have hcell := hwf' _ hmem
  -- presence of the cell decides the mask bit; a null cell forces a mask
  have hnullmem : vs.getD i none = none → (0 : ℕ) < vs.count none := by
    intro h
    exact List.count_pos_iff.2 (h ▸ hmem)
  simp only at hdt
  rcases hdt with hf | hf | hf | hf <;> subst hf
  · -- float64
    rcases hcase : vs.getD i none with _ | v
    · have hc := hnullmem hcase
      simp only [serializeColumn, getValue, getNumericValue, Column.nullCount,
        Column.get, if_pos hc, mask_bit_eq vs i hi, hcase]
      rfl
    · have hv : dtypeOk .float64 v = true := by
        rw [hcase] at hcell
        simpa using hcell
      rcases v with q | s | b | t
      rotate_left
      · simp [dtypeOk] at hv
      · simp [dtypeOk] at hv
      · simp [dtypeOk] at hv
      simp only [serializeColumn, getValue, getNumericValue, Column.nullCount,
        Column.get, Column.length, hcase]
      have hread : (WorkerData.nums (vs.map fun v =>
          match v with
          | none => 0
          | some (.date t) => ((t : ℤ) : ℚ)
          | some (.num q) => q
          | some _ => 0)).read i = .num q := by
        simp only [WorkerData.read]
        rw [getD_map_of_lt _ vs i 0 none hi, hcase]
      by_cases hc : 0 < vs.count none
      · simp only [if_pos hc, mask_bit_eq vs i hi, hcase]
        simp [hread, workerView]
      · simp only [if_neg hc]
        simp [getNumericValue, hread, workerView]
  · -- int32
    rcases hcase : vs.getD i none with _ | v
    · have hc := hnullmem hcase
      simp only [serializeColumn, getValue, getNumericValue, Column.nullCount,
        Column.get, if_pos hc, mask_bit_eq vs i hi, hcase]
      rfl
    · have hv : dtypeOk .int32 v = true := by
        rw [hcase] at hcell
        simpa using hcell
      rcases v with q | s | b | t
      rotate_left
      · simp [dtypeOk] at hv
      · simp [dtypeOk] at hv
      · simp [dtypeOk] at hv
      have hden : q.den = 1 := by
        simp only [dtypeOk, Bool.and_eq_true, beq_iff_eq] at hv
        exact hv.1
      have hread : (WorkerData.ints (vs.map fun v =>
          match v with
          | none => 0
          | some (.num q) => jsTrunc q
          | some _ => 0)).read i = .num q := by
        simp only [WorkerData.read]
        rw [getD_map_of_lt _ vs i 0 none hi, hcase]
        simp only [jsTrunc, hden, Nat.cast_one, Int.tdiv_one]
        rw [(Rat.den_eq_one_iff q).1 hden]
      simp only [serializeColumn, getValue, getNumericValue, Column.nullCount,
        Column.get, Column.length, hcase]
      by_cases hc : 0 < vs.count none
      · simp only [if_pos hc, mask_bit_eq vs i hi, hcase]
        simp [hread, workerView]
      · simp only [if_neg hc]
        simp [getNumericValue, hread, workerView]
  · -- date
    rcases hcase : vs.getD i none with _ | v
    · have hc := hnullmem hcase
      simp only [serializeColumn, getValue, getNumericValue, Column.nullCount,
        Column.get, if_pos hc, mask_bit_eq vs i hi, hcase]
      rfl
    · have hv : dtypeOk .date v = true := by
        rw [hcase] at hcell
        simpa using hcell
      rcases v with q | s | b | t
      · simp [dtypeOk] at hv
      · simp [dtypeOk] at hv
      · simp [dtypeOk] at hv
      have hread : (WorkerData.nums (vs.map fun v =>
          match v with
          | none => 0
          | some (.date t) => ((t : ℤ) : ℚ)
          | some (.num q) => q
          | some _ => 0)).read i = .num ((t : ℤ) : ℚ) := by
        simp only [WorkerData.read]
        rw [getD_map_of_lt _ vs i 0 none hi, hcase]
      simp only [serializeColumn, getValue, getNumericValue, Column.nullCount,
        Column.get, Column.length, hcase]
      by_cases hc : 0 < vs.count none
      · simp only [if_pos hc, mask_bit_eq vs i hi, hcase]
        simp [hread, workerView]
      · simp only [if_neg hc]
        simp [getNumericValue, hread, workerView]
  · -- utf8
    rcases hcase : vs.getD i none with _ | v
    · have hc := hnullmem hcase
      simp only [serializeColumn, getValue, getStringValue, Column.nullCount,
        Column.get, if_pos hc, mask_bit_eq vs i hi, hcase]
      rfl
    · have hv : dtypeOk .utf8 v = true := by
        rw [hcase] at hcell
        simpa using hcell
      rcases v with q | s | b | t
      · simp [dtypeOk] at hv
      rotate_left
      · simp [dtypeOk] at hv
      · simp [dtypeOk] at hv
      have hread : (WorkerData.strs (vs.map fun v =>
          match v with
          | none => ""
          | some (.str s) => s
          | some (.num q) => toString q
          | some (.bool b) => if b then "true" else "false"
          | some (.date _) => "")).read i = .str s := by
        simp only [WorkerData.read]
        rw [getD_map_of_lt _ vs i "" none hi, hcase]
      simp only [serializeColumn, getValue, getStringValue, Column.nullCount,
        Column.get, Column.length, hcase]
      by_cases hc : 0 < vs.count none
      · simp only [if_pos hc, mask_bit_eq vs i hi, hcase]
        simp [hread, workerView]
      · simp only [if_neg hc]
        simp [getStringValue, hread, workerView]

/-- Witness for the amended C7 on a well-formed float64 column with a null. -/
theorem C7_serialize_roundtrip_witness :
    getValue (serializeColumn "x" (Column.mk .float64 [some (.num 5), none])) 0
      = ((Column.mk .float64 [some (.num 5), none]).get 0).map workerView :=
  C7_serialize_roundtrip "x" (Column.mk .float64 [some (.num 5), none]) 0
    (by intro x hx; fin_cases hx <;> rfl) (Or.inl rfl) (by decide)

-- ── C1: synchronous versus parallel aggregation semantics ──

/-- Modelled from the spec: the synchronous group-by engine (§4.4, not under
src/) evaluates each aggregate expression over only the group's row indices;
the group's sub-column is the gather of the source column at those indices,
and the aggregate implementations are the evaluateColumn functions of
string-expr.ts above. -/
def syncGroupColumn (c : Column) (indices : List ℕ) : List (Option Value) :=
  indices.map c.get

/-- C1 divergence, evaluated at the failing inputs: over an all-null group
the synchronous sum is 0 while the worker's sum is null; and over the group
[0, 1] the synchronous std is sqrt(1/2) (sample) while the worker's std is
sqrt(1/4) (population), a difference far above the 1e-5 tolerance. -/
theorem C1_sync_parallel_divergence :
    (SumAggExpr.evaluateColumn (syncGroupColumn (Column.mk .float64 [none]) [0]) = 0
      ∧ computeAgg (serializeColumn "x" (Column.mk .float64 [none])) [0] .sum = none)
    ∧ (StdAggExpr.evaluateColumn
          (syncGroupColumn (Column.mk .float64 [some (.num 0), some (.num 1)]) [0, 1])
        = some (Real.sqrt ((1 : ℝ) / 2))
      ∧ computeAgg
          (serializeColumn "x" (Column.mk .float64 [some (.num 0), some (.num 1)]))
          [0, 1] .std
        = some (.num (Real.sqrt ((1 : ℝ) / 4)))
      ∧ (1 : ℝ) / 100000 < |Real.sqrt ((1 : ℝ) / 2) - Real.sqrt ((1 : ℝ) / 4)|) := by
  refine ⟨⟨rfl, rfl⟩, ?_, ?_, ?_⟩
  · have hcol : syncGroupColumn (Column.mk .float64 [some (.num 0), some (.num 1)]) [0, 1]
        = [some (.num 0), some (.num 1)] := rfl
    rw [hcol, StdAggExpr.evaluateColumn]
    have hvals : List.filterMap numValue [some (.num 0), some (.num 1)] = [0, 1] := rfl
    rw [hvals]
    norm_num [List.foldl]
  · have hser : serializeColumn "x" (Column.mk .float64 [some (.num 0), some (.num 1)])
        = ⟨"x", .float64, .nums [0, 1], none, 2⟩ := by
      simp [serializeColumn, Column.nullCount, Column.length]
    rw [hser, computeAgg]
    have hv0 : numValue (getValue ⟨"x", .float64, .nums [0, 1], none, 2⟩ 0) = some 0 := rfl
    have hv1 : numValue (getValue ⟨"x", .float64, .nums [0, 1], none, 2⟩ 1) = some 1 := rfl
    simp only [List.foldl, hv0, hv1]
    norm_num
  · have h4 : Real.sqrt ((1 : ℝ) / 4) = 1 / 2 := by
      rw [show ((1 : ℝ) / 4) = (1 / 2) ^ 2 by norm_num, Real.sqrt_sq (by norm_num)]
    have h2 : (7 : ℝ) / 10 ≤ Real.sqrt ((1 : ℝ) / 2) :=
      (Real.le_sqrt (by norm_num) (by norm_num)).2 (by norm_num)
    rw [h4, abs_of_nonneg (by linarith)]
    linarith

-- ── Parallel coordinator: part_013 lines 143-247 ──

/-- An aggregation request of the worker protocol
(engine/parallelism/types.ts AggSpec). -/
structure AggSpec where
  columnName : String
  aggType : AggType

/-- A per-group worker result (engine/parallelism/types.ts GroupResult). -/
structure GroupResult where
  groupIndex : ℕ
  keyValues : List (Option Value)
  aggValues : List (String × Option AggOut)

/-- The comparator of the final merge: ascending original group position
(the source sorts with a.groupIndex - b.groupIndex). -/
def groupIndexLe (a b : GroupResult) : Bool :=
  decide (a.groupIndex ≤ b.groupIndex)

/-- The worker's processing of one (original position, row indices) pair
(part_014 lines 167-192): key values read from the group's first row, one
aggregate value per requested output. -/
noncomputable def processGroup (columns : List (String × WorkerColumnData))
    (aggSpecs : List (String × AggSpec)) (keyColumns : List String)
    (g : ℕ × List ℕ) : GroupResult :=
  ⟨g.1,
    keyColumns.map fun kc =>
      match columns.lookup kc with
      | some cd => getValue cd (g.2.headD 0)
      | none => none,
    aggSpecs.map fun p =>
      (p.1,
        match columns.lookup p.2.columnName with
        | some cd => computeAgg cd g.2 p.2.aggType
        | none => none)⟩

/-- The worker message loop (part_014 lines 141-195): one result per
assigned group, in the order the groups were sent. -/
noncomputable def workerRun (columns : List (String × WorkerColumnData))
    (aggSpecs : List (String × AggSpec)) (keyColumns : List String)
    (groups : List (ℕ × List ℕ)) : List GroupResult :=
  groups.map (processGroup columns aggSpecs keyColumns)

/-- partitionGroups (part_013 lines 143-156): the round-robin loop sends the
entry at position i, tagged with i, to partition i mod workerCount; rendered
as the residue filter it produces. -/
def partitionGroups (groupEntries : List (String × List ℕ))
    (workerCount : ℕ) : List (List (ℕ × List ℕ)) :=
  (List.range workerCount).map fun j =>
    ((groupEntries.enum.map fun p => (p.1, p.2.2)).filter
      fun p => p.1 % workerCount = j)

/-- The column set sent to workers (part_013 lines 186-202): key columns and
the aggregates' source columns, serialized.  The source deduplicates the
name set first; duplicates here carry identical data and lookup ignores
them. -/
def serializeNeeded (keyColumnNames : List String)
    (aggSpecs : List (String × AggSpec))
    (sourceColumns : List (String × Column)) :
    List (String × WorkerColumnData) :=
  (keyColumnNames ++ aggSpecs.map fun p => p.2.columnName).filterMap fun n =>
    (sourceColumns.lookup n).map fun c => (n, serializeColumn n c)

/-- parallelAgg (part_013 lines 169-247), success path: cap the worker count
at the group count, partition round-robin, run every worker, concatenate the
partial results and sort them by original group position. -/
noncomputable def parallelAgg (groupEntries : List (String × List ℕ))
    (keyColumnNames : List String) (aggSpecs : List (String × AggSpec))
    (sourceColumns : List (String × Column)) (workerCountOpt : ℕ) :
    List GroupResult :=
  (((partitionGroups groupEntries (min workerCountOpt groupEntries.length)).map
      fun partition =>
        if partition = [] then []
        else
          workerRun (serializeNeeded keyColumnNames aggSpecs sourceColumns)
            aggSpecs keyColumnNames partition).flatten).mergeSort groupIndexLe

/-- Promise.all over the settled worker outcomes: the first rejection (in
worker order) rejects the whole call, otherwise all result lists are
collected in order. -/
def exceptSequence {E A : Type} : List (Except E A) → Except E (List A)
  | [] => .ok []
  | x :: xs =>
      match x with
      | .error e => .error e
      | .ok a =>
          match exceptSequence xs with
          | .error e => .error e
          | .ok rest => .ok (a :: rest)

/-- parallelAgg (part_013 lines 208-246) as a function of the settled worker
outcomes: each worker promise either resolves with its partial results or
rejects; Promise.all propagates a rejection, and only a fully successful
run reaches the merge-and-sort step. -/
noncomputable def parallelAggSettle
    (outcomes : List (Except String (List GroupResult))) :
    Except String (List GroupResult) :=
  (exceptSequence outcomes).map fun rss => (rss.flatten).mergeSort groupIndexLe

-- ── C5: a failing worker rejects the whole call ──

/-- C5: if one worker task fails with an error (the workers before it having
succeeded), the whole parallelAgg call rejects with exactly that error and
no result list is produced, whatever the later workers did. -/
theorem C5_worker_failure_rejects
    (pre post : List (Except String (List GroupResult)))
    (e : String) (hpre : ∀ x ∈ pre, ∃ rs, x = .ok rs) :
    parallelAggSettle (pre ++ .error e :: post) = .error e := by
  have hseq : ∀ pre' : List (Except String (List GroupResult)),
      (∀ x ∈ pre', ∃ rs, x = .ok rs) →
      exceptSequence (pre' ++ .error e :: post) = .error e := by
    intro pre'
    induction pre' with
    | nil => intro _; rfl
    | cons x rest ih =>
        intro hall
        obtain ⟨rs, hx⟩ := hall x (List.mem_cons_self x rest)
        subst hx
        rw [List.cons_append, exceptSequence,
          ih fun y hy => hall y (List.mem_cons_of_mem _ hy)]
  rw [parallelAggSettle, hseq pre hpre]
  rfl

/-- Witness for C5: one successful worker followed by a failing one. -/
theorem C5_worker_failure_rejects_witness :
    parallelAggSettle [.ok [], .error "worker failed"] = .error "worker failed" :=
  C5_worker_failure_rejects [.ok []] [] "worker failed"
    (fun x hx => by
      rw [List.mem_singleton] at hx
      exact ⟨[], hx⟩)

-- ── C4: round-robin partitioning and merge order ──

/-- Summing an indicator-weighted map over a range that covers the index. -/
theorem sum_ite_range_of_lt (k c wc : ℕ) (h : k < wc) :
    ((List.range wc).map fun j => if k = j then c else 0).sum = c := by
  induction wc with
  | zero => omega
  | succ m ih =>
      rw [List.range_succ, List.map_append, List.sum_append]
      by_cases hk : k = m
      · subst hk
        have hz : ((List.range k).map fun j => if k = j then c else 0).sum = 0 :=
          List.sum_eq_zero fun x hx => by
            obtain ⟨j, hj, hxe⟩ := List.mem_map.1 hx
            rw [List.mem_range] at hj
            rw [← hxe, if_neg (by omega)]
        rw [hz]
        simp
      · have hk' : k < m := by omega
        rw [ih hk']
        simp [hk]

/-- Splitting a list into its residue classes and flattening back is a
permutation of the list. -/
theorem flatten_residue_filter_perm {β : Type} [DecidableEq β] (l : List β)
    (key : β → ℕ) (wc : ℕ) (hwc : ∀ x ∈ l, key x < wc) :
    ((List.range wc).map fun j => l.filter fun x => key x = j).flatten.Perm l := by
  rw [List.perm_iff_count]
  intro a
  rw [List.count_flatten, List.map_map]
  have hpt : ∀ j ∈ List.range wc,
      (List.count a ∘ fun j => l.filter fun x => key x = j) j
        = if key a = j then l.count a else 0 := by
    intro j _
    simp only [Function.comp]
    by_cases h : key a = j
    · rw [if_pos h]
      exact List.count_filter (by simpa using h)
    · rw [if_neg h]
      refine List.count_eq_zero_of_not_mem fun hmem => ?_
      have hfil := (List.mem_filter.1 hmem).2
      exact h (by simpa using hfil)
  rw [List.map_congr_left hpt]
  by_cases ha : a ∈ l
  · exact sum_ite_range_of_lt (key a) (l.count a) wc (hwc a ha)
  · rw [List.count_eq_zero_of_not_mem ha]
    exact List.sum_eq_zero fun x hx => by
      obtain ⟨j, hj, hxe⟩ := List.mem_map.1 hx
      rw [← hxe]
      exact ite_self 0

/-- The tagged pair list walked by the round-robin loop, in input order. -/
theorem enum_pairs_eq (groupEntries : List (String × List ℕ)) :
    groupEntries.enum.map (fun p => (p.1, p.2.2))
      = (List.range groupEntries.length).map
          fun i => (i, (groupEntries.getD i ("", [])).2) := by
  apply List.ext_getElem
  · simp [List.enum_length]
  · intro k h1 h2
    have hk : k < groupEntries.length := by
      simpa [List.enum_length] using h1
    simp only [List.getElem_map, List.getElem_range]
    rw [List.getElem_enum]
    rw [List.getD_eq_getElem _ _ hk]

/-- C4: the round-robin loop sends the group at position i (tagged with i)
to partition i mod workerCount and to no other partition, and parallelAgg
returns exactly one worker result per input group, sorted back into the
input order of the group list. -/
theorem C4_round_robin_order (groupEntries : List (String × List ℕ))
    (keyColumnNames : List String) (aggSpecs : List (String × AggSpec))
    (sourceColumns : List (String × Column)) (wcOpt : ℕ) (hwc : 0 < wcOpt) :
    (∀ i, ∀ hi : i < groupEntries.length, ∀ j,
      j < min wcOpt groupEntries.length →
      ((i, groupEntries[i].2)
          ∈ (partitionGroups groupEntries (min wcOpt groupEntries.length)).getD j []
        ↔ i % min wcOpt groupEntries.length = j))
    ∧ parallelAgg groupEntries keyColumnNames aggSpecs sourceColumns wcOpt
        = (List.range groupEntries.length).map fun i =>
            processGroup (serializeNeeded keyColumnNames aggSpecs sourceColumns)
              aggSpecs keyColumnNames (i, (groupEntries.getD i ("", [])).2) := by
  constructor
  · intro i hi j hj
    have hgetD : (partitionGroups groupEntries
          (min wcOpt groupEntries.length)).getD j []
        = (groupEntries.enum.map (fun p => (p.1, p.2.2))).filter
            (fun p => p.1 % min wcOpt groupEntries.length = j) := by
      rw [partitionGroups]
      rw [List.getD_eq_getElem _ _ (by simpa using hj), List.getElem_map,
        List.getElem_range]
    rw [hgetD, List.mem_filter]
    have hmem : (i, groupEntries[i].2)
        ∈ groupEntries.enum.map (fun p => (p.1, p.2.2)) := by
      rw [enum_pairs_eq]
      refine List.mem_map.2 ⟨i, List.mem_range.2 hi, ?_⟩
      rw [List.getD_eq_getElem _ _ hi]
    constructor
    · rintro ⟨_, hfil⟩
      simpa using hfil
    · intro hres
      exact ⟨hmem, by simpa using hres⟩
  · rw [parallelAgg]
    have hF : (partitionGroups groupEntries
          (min wcOpt groupEntries.length)).map
          (fun partition =>
            if partition = [] then []
            else workerRun (serializeNeeded keyColumnNames aggSpecs sourceColumns)
              aggSpecs keyColumnNames partition)
        = (partitionGroups groupEntries (min wcOpt groupEntries.length)).map
            (List.map (processGroup
              (serializeNeeded keyColumnNames aggSpecs sourceColumns)
              aggSpecs keyColumnNames)) := by
      apply List.map_congr_left
      intro p _
      by_cases hp : p = []
      · subst hp; rfl
      · rw [if_neg hp]; rfl
    rw [hF, ← List.map_flatten]
    have hperm0 : (partitionGroups groupEntries
          (min wcOpt groupEntries.length)).flatten.Perm
        (groupEntries.enum.map fun p => (p.1, p.2.2)) := by
      rw [partitionGroups]
      refine flatten_residue_filter_perm _ _ _ ?_
      intro x hx
      have hn0 : 0 < groupEntries.length := by
        have hne := List.ne_nil_of_mem hx
        have hlen : (groupEntries.enum.map fun p => (p.1, p.2.2)).length
            = groupEntries.length := by simp [List.enum_length]
        have := List.length_pos.2 hne
        omega
      exact Nat.mod_lt _ (lt_min hwc hn0)
    have hperm : (((partitionGroups groupEntries
          (min wcOpt groupEntries.length)).flatten.map
            (processGroup (serializeNeeded keyColumnNames aggSpecs sourceColumns)
              aggSpecs keyColumnNames)).mergeSort groupIndexLe).Perm
        ((List.range groupEntries.length).map fun i =>
          processGroup (serializeNeeded keyColumnNames aggSpecs sourceColumns)
            aggSpecs keyColumnNames (i, (groupEntries.getD i ("", [])).2)) := by
      refine (List.mergeSort_perm _ _).trans ?_
      have h1 := hperm0.map (processGroup
        (serializeNeeded keyColumnNames aggSpecs sourceColumns)
        aggSpecs keyColumnNames)
      refine h1.trans ?_
      rw [enum_pairs_eq, List.map_map]
      exact List.Perm.refl _
    have htrans : ∀ a b c : GroupResult, groupIndexLe a b = true →
        groupIndexLe b c = true → groupIndexLe a c = true := by
      intro a b c hab hbc
      simp only [groupIndexLe, decide_eq_true_eq] at hab hbc ⊢
      omega
    have htotal : ∀ a b : GroupResult,
        (groupIndexLe a b || groupIndexLe b a) = true := by
      intro a b
      simp only [groupIndexLe, Bool.or_eq_true, decide_eq_true_eq]
      omega
    have hsorted := List.sorted_mergeSort htrans htotal
      ((partitionGroups groupEntries (min wcOpt groupEntries.length)).flatten.map
        (processGroup (serializeNeeded keyColumnNames aggSpecs sourceColumns)
          aggSpecs keyColumnNames))
    have htargetPW : List.Pairwise
        (fun a b : GroupResult => a.groupIndex < b.groupIndex)
        ((List.range groupEntries.length).map fun i =>
          processGroup (serializeNeeded keyColumnNames aggSpecs sourceColumns)
            aggSpecs keyColumnNames (i, (groupEntries.getD i ("", [])).2)) := by
      refine (List.pairwise_map).2 ?_
      exact (List.pairwise_lt_range groupEntries.length).imp fun hab => hab
    have htk : ((List.range groupEntries.length).map fun i =>
          processGroup (serializeNeeded keyColumnNames aggSpecs sourceColumns)
            aggSpecs keyColumnNames (i, (groupEntries.getD i ("", [])).2)).map
          (fun r => r.groupIndex) = List.range groupEntries.length := by
      rw [List.map_map]
      have : ((fun r : GroupResult => r.groupIndex) ∘ fun i =>
          processGroup (serializeNeeded keyColumnNames aggSpecs sourceColumns)
            aggSpecs keyColumnNames (i, (groupEntries.getD i ("", [])).2))
          = fun i => i := rfl
      rw [this, List.map_id']
    have hnd : ((((partitionGroups groupEntries
          (min wcOpt groupEntries.length)).flatten.map
            (processGroup (serializeNeeded keyColumnNames aggSpecs sourceColumns)
              aggSpecs keyColumnNames)).mergeSort groupIndexLe).map
          (fun r => r.groupIndex)).Nodup := by
      rw [(hperm.map fun r => r.groupIndex).nodup_iff, htk]
      exact List.nodup_range _
    have hnd' : List.Pairwise (fun x y : ℕ => x ≠ y)
        (((((partitionGroups groupEntries
          (min wcOpt groupEntries.length)).flatten.map
            (processGroup (serializeNeeded keyColumnNames aggSpecs sourceColumns)
              aggSpecs keyColumnNames)).mergeSort groupIndexLe)).map
          (fun r => r.groupIndex)) := hnd
    have hne := (List.pairwise_map).1 hnd' 
    have hmergedPW : List.Pairwise
        (fun a b : GroupResult => a.groupIndex < b.groupIndex)
        (((partitionGroups groupEntries
          (min wcOpt groupEntries.length)).flatten.map
            (processGroup (serializeNeeded keyColumnNames aggSpecs sourceColumns)
              aggSpecs keyColumnNames)).mergeSort groupIndexLe) := by
      refine (hsorted.and hne).imp ?_
      intro a b hab
      have h1 : a.groupIndex ≤ b.groupIndex := by
        have h2 := hab.1
        simpa [groupIndexLe] using h2
      exact lt_of_le_of_ne h1 hab.2
    haveI : IsAntisymm GroupResult
        (fun a b => a.groupIndex < b.groupIndex) :=
      ⟨fun a b h1 h2 => absurd h2 (Nat.lt_asymm h1)⟩
    exact List.eq_of_perm_of_sorted hperm hmergedPW htargetPW

/-- A concrete three-group entry list for the C4 witness. -/
def c4entries : List (String × List ℕ) :=
  [("a", [0]), ("b", [1]), ("c", [2])]

/-- Witness for C4 on three groups split over two workers. -/
theorem C4_round_robin_order_witness :
    (∀ i, ∀ hi : i < c4entries.length, ∀ j, j < min 2 c4entries.length →
      ((i, c4entries[i].2)
          ∈ (partitionGroups c4entries (min 2 c4entries.length)).getD j []
        ↔ i % min 2 c4entries.length = j))
    ∧ parallelAgg c4entries ["k"] [] [] 2
        = (List.range c4entries.length).map fun i =>
            processGroup (serializeNeeded ["k"] [] []) [] ["k"]
              (i, (c4entries.getD i ("", [])).2) :=
  C4_round_robin_order c4entries ["k"] [] [] 2 (by decide)

-- ── ModeAggExpr: string-expr.ts lines 1193-1219 ──

/-- One step of the counts Map of ModeAggExpr.evaluateColumn: bump the
existing entry for the key in place (JS Map insertion order is preserved on
update), or append a fresh entry with count 1. -/
def bumpCount {α : Type} [DecidableEq α] : List (α × ℕ) → α → List (α × ℕ)
  | [], k => [(k, 1)]
  | (k', c) :: rest, k =>
      if k' = k then (k', c + 1) :: rest
      else (k', c) :: bumpCount rest k

/-- The counts Map of ModeAggExpr.evaluateColumn (lines 1196-1208), as an
insertion-ordered association list.  The source keys the Map by
toComparableKey, which encodes the value injectively (typed prefix plus
rendered value), so the model keys by the value itself. -/
def modeCounts {α : Type} [DecidableEq α] (col : List (Option α)) :
    List (α × ℕ) :=
  col.foldl
    (fun acc v => match v with
      | some x => bumpCount acc x
      | none => acc) []

/-- The best-entry scan of ModeAggExpr.evaluateColumn (lines 1209-1216):
walk the entries in insertion order, replacing the best only on a strictly
greater count. -/
def modeBest {α : Type} (l : List (α × ℕ)) : Option α × ℕ :=
  l.foldl (fun bb p => if p.2 > bb.2 then (some p.1, p.2) else bb) (none, 0)

/-- ModeAggExpr.evaluateColumn (lines 1193-1219). -/
def ModeAggExpr.evaluateColumn {α : Type} [DecidableEq α]
    (col : List (Option α)) : Option α :=
  (modeBest (modeCounts col)).1

/-- The first-occurrence order of the distinct elements of a list. -/
def firstOccs {α : Type} [DecidableEq α] (l : List α) : List α :=
  l.foldl (fun acc a => if a ∈ acc then acc else acc ++ [a]) []

theorem firstOccs_append_singleton {α : Type} [DecidableEq α] (l : List α)
    (a : α) :
    firstOccs (l ++ [a])
      = if a ∈ firstOccs l then firstOccs l else firstOccs l ++ [a] := by
  rw [firstOccs, List.foldl_append]
  rfl

theorem mem_firstOccs {α : Type} [DecidableEq α] (l : List α) (x : α) :
    x ∈ firstOccs l ↔ x ∈ l := by
  induction l using List.reverseRecOn with
  | nil => rfl
  | append_singleton l a ih =>
      rw [firstOccs_append_singleton]
      by_cases ha : a ∈ firstOccs l
      · rw [if_pos ha]
        rw [ih]
        constructor
        · intro h; exact List.mem_append_left _ h
        · intro h
          rcases List.mem_append.1 h with h | h
          · exact h
          · rw [List.mem_singleton] at h
            subst h
            exact ih.1 ha
      · rw [if_neg ha, List.mem_append, List.mem_append, ih]

theorem nodup_firstOccs {α : Type} [DecidableEq α] (l : List α) :
    (firstOccs l).Nodup := by
  induction l using List.reverseRecOn with
  | nil => exact List.nodup_nil
  | append_singleton l a ih =>
      rw [firstOccs_append_singleton]
      by_cases ha : a ∈ firstOccs l
      · rw [if_pos ha]; exact ih
      · rw [if_neg ha]
        rw [List.nodup_append]
        refine ⟨ih, List.nodup_singleton a, ?_⟩
        intro x hx hxa
        rw [List.mem_singleton] at hxa
        subst hxa
        exact ha hx

/-- Bumping a key present in a nodup keyed map increments exactly its
count. -/
theorem bumpCount_mem {α : Type} [DecidableEq α] (L : List α) (f : α → ℕ)
    (a : α) (hnd : L.Nodup) (ha : a ∈ L) :
    bumpCount (L.map fun k => (k, f k)) a
      = L.map fun k => (k, f k + if k = a then 1 else 0) := by
  induction L with
  | nil => cases ha
  | cons k' rest ih =>
      rw [List.map_cons, List.map_cons, bumpCount]
      by_cases hk : k' = a
      · rw [if_pos hk]
        subst hk
        have hnotin : k' ∉ rest := (List.nodup_cons.1 hnd).1
        congr 1
        · rw [if_pos rfl]
        · apply List.map_congr_left
          intro x hx
          have hxa : x ≠ k' := fun h => hnotin (h ▸ hx)
          rw [if_neg hxa, Nat.add_zero]
      · rw [if_neg hk]
        have ha' : a ∈ rest := by
          rcases List.mem_cons.1 ha with h | h
          · exact absurd h.symm hk
          · exact h
        rw [ih (List.nodup_cons.1 hnd).2 ha']
        congr 1
        rw [if_neg hk, Nat.add_zero]

/-- Bumping an absent key appends a fresh entry with count 1. -/
theorem bumpCount_not_mem {α : Type} [DecidableEq α] (L : List α) (f : α → ℕ)
    (a : α) (ha : a ∉ L) :
    bumpCount (L.map fun k => (k, f k)) a
      = (L.map fun k => (k, f k)) ++ [(a, 1)] := by
  induction L with
  | nil => rfl
  | cons k' rest ih =>
      rw [List.map_cons, bumpCount]
      have hk : k' ≠ a := fun h => ha (h ▸ List.mem_cons_self k' rest)
      rw [if_neg hk, ih fun h => ha (List.mem_cons_of_mem _ h)]
      rfl

/-- The counts map after the whole scan: the distinct values in
first-occurrence order, each with its total occurrence count. -/
theorem countsList_eq {α : Type} [DecidableEq α] (l : List α) :
    l.foldl bumpCount [] = (firstOccs l).map fun k => (k, l.count k) := by
  induction l using List.reverseRecOn with
  | nil => rfl
  | append_singleton l a ih =>
      rw [List.foldl_append, List.foldl_cons, List.foldl_nil, ih,
        firstOccs_append_singleton]
      by_cases ha : a ∈ firstOccs l
      · rw [if_pos ha]
        have ha' : a ∈ l := (mem_firstOccs l a).1 ha
        rw [bumpCount_mem (firstOccs l) (fun k => l.count k) a
          (nodup_firstOccs l) ha]
        apply List.map_congr_left
        intro k _
        rw [List.count_append, List.count_singleton]
        by_cases hk : k = a
        · subst hk
          rw [if_pos rfl]
          simp
        · rw [if_neg hk]
          have : (a == k) = false := by
            simpa using fun h => hk h.symm
          rw [this]
          rfl
      · rw [if_neg ha]
        have ha' : a ∉ l := fun h => ha ((mem_firstOccs l a).2 h)
        rw [bumpCount_not_mem (firstOccs l) (fun k => l.count k) a ha,
          List.map_append]
        congr 1
        · apply List.map_congr_left
          intro k hk
          have hka : k ≠ a := fun h => ha (h ▸ hk)
          rw [List.count_append, List.count_singleton]
          have : (a == k) = false := by
            simpa using fun h => hka h.symm
          rw [this]
          rfl
        · rw [List.map_singleton]
          congr 1
          rw [List.count_append, List.count_eq_zero_of_not_mem ha',
            List.count_singleton]
          simp

/-- The mode scan skips null cells: it folds over the non-null values. -/
theorem modeCounts_filterMap {α : Type} [DecidableEq α]
    (col : List (Option α)) :
    modeCounts col = (col.filterMap id).foldl bumpCount [] := by
  rw [modeCounts]
  suffices h : ∀ acc : List (α × ℕ), col.foldl
      (fun acc v => match v with
        | some x => bumpCount acc x
        | none => acc) acc = (col.filterMap id).foldl bumpCount acc from h []
  induction col with
  | nil => intro acc; rfl
  | cons v rest ih =>
      intro acc
      rcases v with _ | x
      · rw [List.foldl_cons, List.filterMap_cons]
        exact ih acc
      · rw [List.foldl_cons, List.filterMap_cons]
        simp only [id]
        rw [List.foldl_cons]
        exact ih (bumpCount acc x)

/-- The best-entry scan returns the first entry of maximal count: nothing on
an empty map, else an entry that no other entry beats and that no earlier
entry ties. -/
theorem modeBest_spec {α : Type} (L : List (α × ℕ)) (hpos : ∀ p ∈ L, 1 ≤ p.2) :
    (L = [] ∧ modeBest L = (none, 0))
    ∨ (∃ j, ∃ hj : j < L.length, modeBest L = (some L[j].1, L[j].2)
        ∧ (∀ i, ∀ hi : i < L.length, L[i].2 ≤ L[j].2)
        ∧ (∀ i, ∀ hi : i < L.length, i < j → L[i].2 < L[j].2)) := by
  induction L using List.reverseRecOn with
  | nil => exact Or.inl ⟨rfl, rfl⟩
  | append_singleton L p ih =>
      right
      have hstep : modeBest (L ++ [p])
          = if p.2 > (modeBest L).2 then (some p.1, p.2) else modeBest L := by
        rw [modeBest, List.foldl_append]
        rfl
      have hpe : (L ++ [p])[L.length] = p := by
        rw [List.getElem_append_right (le_refl L.length)]
        simp
      rcases ih (fun q hq => hpos q (List.mem_append_left _ hq)) with
        ⟨hL, hmb⟩ | ⟨j, hj, heq, hmax, hfirst⟩
      · subst hL
        have hp : 1 ≤ p.2 := hpos p (List.mem_append_right _ (List.mem_singleton.2 rfl))
        refine ⟨0, by simp, ?_, ?_, ?_⟩
        · rw [hstep, hmb]
          rw [if_pos (by simpa using hp)]
          rfl
        · intro i hi
          have hi0 : i = 0 := by simpa using hi
          subst hi0
          exact le_refl _
        · intro i hi hij
          omega
      · by_cases hcmp : p.2 > L[j].2
        · refine ⟨L.length, by simp, ?_, ?_, ?_⟩
          · rw [hstep, heq, hpe]
            rw [if_pos hcmp]
          · intro i hi
            rw [hpe]
            by_cases hil : i < L.length
            · rw [List.getElem_append_left hil]
              have := hmax i hil
              omega
            · have hieq : i = L.length := by
                rw [List.length_append, List.length_singleton] at hi
                omega
              subst hieq
              rw [hpe]
          · intro i hi hij
            rw [List.getElem_append_left hij, hpe]
            have := hmax i hij
            omega
        · have hj' : j < (L ++ [p]).length := by
            rw [List.length_append, List.length_singleton]
            omega
          refine ⟨j, hj', ?_, ?_, ?_⟩
          · rw [hstep, heq]
            rw [if_neg (by simpa using hcmp), List.getElem_append_left hj]
          · intro i hi
            rw [List.getElem_append_left hj]
            by_cases hil : i < L.length
            · rw [List.getElem_append_left hil]
              exact hmax i hil
            · have hieq : i = L.length := by
                rw [List.length_append, List.length_singleton] at hi
                omega
              subst hieq
              rw [hpe]
              omega
          · intro i hi hij
            have hil : i < L.length := by omega
            rw [List.getElem_append_left hj, List.getElem_append_left hil]
            exact hfirst i hil hij

/-- Index of a fresh element appended at the end of a list. -/
theorem indexOf_append_self {α : Type} [DecidableEq α] (l : List α) (a : α)
    (ha : a ∉ l) : (l ++ [a]).indexOf a = l.length := by
  induction l with
  | nil => simp
  | cons b rest ih =>
      rw [List.cons_append, List.indexOf_cons]
      have hba : (b == a) = false := by
        have hne : b ≠ a := fun h => ha (h ▸ List.mem_cons_self b rest)
        simpa using hne
      rw [hba]
      simp only [cond_false, List.length_cons]
      rw [ih fun h => ha (List.mem_cons_of_mem _ h)]

/-- The distinct values in first-occurrence order are strictly ordered by
their first index in the scanned list. -/
theorem firstOccs_pairwise_indexOf {α : Type} [DecidableEq α] (l : List α) :
    (firstOccs l).Pairwise fun a b => l.indexOf a < l.indexOf b := by
  induction l using List.reverseRecOn with
  | nil => exact List.Pairwise.nil
  | append_singleton l a ih =>
      rw [firstOccs_append_singleton]
      by_cases ha : a ∈ firstOccs l
      · rw [if_pos ha]
        refine ih.imp_of_mem ?_
        intro x y hx hy hxy
        rw [List.indexOf_append_of_mem ((mem_firstOccs l x).1 hx),
          List.indexOf_append_of_mem ((mem_firstOccs l y).1 hy)]
        exact hxy
      · rw [if_neg ha]
        rw [List.pairwise_append]
        have ha' : a ∉ l := fun h => ha ((mem_firstOccs l a).2 h)
        refine ⟨ih.imp_of_mem ?_, by simp, ?_⟩
        · intro x y hx hy hxy
          rw [List.indexOf_append_of_mem ((mem_firstOccs l x).1 hx),
            List.indexOf_append_of_mem ((mem_firstOccs l y).1 hy)]
          exact hxy
        · intro x hx b hb
          rw [List.mem_singleton] at hb
          subst hb
          have hx' : x ∈ l := (mem_firstOccs l x).1 hx
          rw [List.indexOf_append_of_mem hx', indexOf_append_self l b ha']
          exact (List.indexOf_lt_length).2 hx'

/-- C8: on a column with at least one non-null value, mode returns a
non-null value of maximal occurrence count, and any value tying that count
occurs no earlier among the column's non-null values; on an empty or
all-null column mode returns null. -/
theorem C8_mode_first_encountered {α : Type} [DecidableEq α]
    (col : List (Option α)) :
    (col.filterMap id = [] → ModeAggExpr.evaluateColumn col = none)
    ∧ (col.filterMap id ≠ [] → ∃ m, ModeAggExpr.evaluateColumn col = some m
        ∧ m ∈ col.filterMap id
        ∧ (∀ v ∈ col.filterMap id,
            (col.filterMap id).count v ≤ (col.filterMap id).count m)
        ∧ (∀ v ∈ col.filterMap id,
            (col.filterMap id).count v = (col.filterMap id).count m →
            (col.filterMap id).indexOf m ≤ (col.filterMap id).indexOf v)) := by
  have hcounts : modeCounts col = (firstOccs (col.filterMap id)).map
      (fun k => (k, (col.filterMap id).count k)) := by
    rw [modeCounts_filterMap, countsList_eq]
  constructor
  · intro hns
    rw [ModeAggExpr.evaluateColumn, hcounts, hns]
    rfl
  · intro hns
    have hpos : ∀ p ∈ (firstOccs (col.filterMap id)).map
        (fun k => (k, (col.filterMap id).count k)), 1 ≤ p.2 := by
      intro p hp
      obtain ⟨k, hk, hpe⟩ := List.mem_map.1 hp
      rw [← hpe]
      exact List.count_pos_iff.2 ((mem_firstOccs _ k).1 hk)
    rcases modeBest_spec _ hpos with ⟨hLnil, _⟩ | ⟨j, hj, heq, hmax, hfirst⟩
    · exfalso
      obtain ⟨x, hx⟩ := List.exists_mem_of_ne_nil _ hns
      have hxfo : x ∈ firstOccs (col.filterMap id) :=
        (mem_firstOccs _ x).2 hx
      rw [List.map_eq_nil.1 hLnil] at hxfo
      cases hxfo
    · have hjlen : j < (firstOccs (col.filterMap id)).length := by
        simpa using hj
      refine ⟨(firstOccs (col.filterMap id))[j], ?_, ?_, ?_, ?_⟩
      · rw [ModeAggExpr.evaluateColumn, hcounts, heq]
        simp only [List.getElem_map]
      · exact (mem_firstOccs _ _).1 (List.getElem_mem hjlen)
      · intro v hv
        obtain ⟨i, hi, hfi⟩ :=
          List.mem_iff_getElem.1 ((mem_firstOccs _ v).2 hv)
        have h1 := hmax i (by simpa using hi)
        simp only [List.getElem_map] at h1
        rw [hfi] at h1
        exact h1
      · intro v hv htie
        obtain ⟨i, hi, hfi⟩ :=
          List.mem_iff_getElem.1 ((mem_firstOccs _ v).2 hv)
        by_cases hij : i < j
        · exfalso
          have hlt := hfirst i (by simpa using hi) hij
          simp only [List.getElem_map] at hlt
          rw [hfi] at hlt
          omega
        · rcases Nat.eq_or_lt_of_le (Nat.le_of_not_lt hij) with hji | hji
          · subst hji
            rw [hfi]
          · have hpw := firstOccs_pairwise_indexOf (col.filterMap id)
            have hstrict := (List.pairwise_iff_getElem.1 hpw) j i hjlen hi hji
            rw [hfi] at hstrict
            exact Nat.le_of_lt hstrict

/-- Witness for C8 on [1, 2, 2, null]: the mode is 2. -/
theorem C8_mode_first_encountered_witness :
    ∃ m, ModeAggExpr.evaluateColumn [some 1, some 2, some 2, none] = some m
      ∧ m ∈ ([some 1, some 2, some 2, none].filterMap id)
      ∧ (∀ v ∈ [some 1, some 2, some 2, none].filterMap id,
          ([some 1, some 2, some 2, none].filterMap id).count v
            ≤ ([some 1, some 2, some 2, none].filterMap (id : Option ℕ → Option ℕ)).count m)
      ∧ (∀ v ∈ [some 1, some 2, some 2, none].filterMap id,
          ([some 1, some 2, some 2, none].filterMap id).count v
              = ([some 1, some 2, some 2, none].filterMap id).count m →
          ([some 1, some 2, some 2, none].filterMap id).indexOf m
            ≤ ([some 1, some 2, some 2, none].filterMap (id : Option ℕ → Option ℕ)).indexOf v) :=
  (C8_mode_first_encountered [some 1, some 2, some 2, none]).2 (by decide)

end FrameKit
